import Mathlib

/-!  Shallow embedding of the core computation of the portfolio rebalance
tracker (`src/components/rebalance-tracker.tsx`).  JavaScript numbers are
modelled as rationals; user-entered strings are modelled by their parsed
numeric values (the caller substitutes 0 for unparseable input). -/

/-- `roundToHundred` (source lines 47-49): `Math.round(shares / 100) * 100`.
JavaScript `Math.round x` equals `⌊x + 1/2⌋` (half-ties toward plus infinity). -/
def roundToHundred (shares : ℚ) : ℚ :=
  ((⌊shares / 100 + 1 / 2⌋ : ℤ) : ℚ) * 100

/-- The two fields of a computed asset that `optimizeTradeShares` actually
reads (`a.tradeShares` and the parsed `a.price`). -/
structure OptInput where
  tradeShares : ℚ
  price : ℚ
  deriving DecidableEq

instance : Inhabited OptInput := ⟨⟨0, 0⟩⟩

/-- The candidate moves scanned by one iteration of the optimizer's inner
loop (source lines 83-102): asset indices in ascending order, an asset with
non-positive price is skipped (`continue`), and for each remaining asset the
direction `-1` is tried before `+1`. -/
def candidates (prices : List ℚ) : List (ℕ × ℤ) :=
  (List.range prices.length).flatMap fun i =>
    if prices.getD i 0 ≤ 0 then [] else [(i, -1), (i, 1)]

/-- The improvement the code computes for one candidate move (source lines
86-94): `|deviation| - |deviation + costChange|` where
`costChange = newShares * price - currentShares * price`. -/
def improvement (prices adjusted : List ℚ) (deviation : ℚ) (i : ℕ) (dir : ℤ) : ℚ :=
  |deviation| -
    |deviation +
      ((adjusted.getD i 0 + (dir : ℚ) * 100) * prices.getD i 0 -
        adjusted.getD i 0 * prices.getD i 0)|

/-- One update of the running `(bestImprovement, bestIndex, bestDirection)`
triple (source lines 96-100): replace only on strict improvement, so the
first-seen candidate wins ties. -/
def stepBest (prices adjusted : List ℚ) (deviation : ℚ) (best : ℚ × ℤ × ℤ)
    (c : ℕ × ℤ) : ℚ × ℤ × ℤ :=
  if best.1 < improvement prices adjusted deviation c.1 c.2 then
    (improvement prices adjusted deviation c.1 c.2, (c.1 : ℤ), c.2)
  else best

/-- The inner scan of one optimizer iteration, starting from
`bestImprovement = 0`, `bestIndex = -1`, `bestDirection = 0`. -/
def selectBest (prices adjusted : List ℚ) (deviation : ℚ) : ℚ × ℤ × ℤ :=
  (candidates prices).foldl (stepBest prices adjusted deviation) (0, -1, 0)

/-- The optimizer's iteration loop (source lines 76-111): up to `fuel`
iterations (20 in the source), each iteration runs only while
`|deviation| > 100`, applies the selected move when
`bestIndex >= 0 && bestImprovement > 0`, and otherwise breaks. -/
def greedyLoop : ℕ → List ℚ → List ℚ → ℚ → List ℚ × ℚ
  | 0, _, adjusted, deviation => (adjusted, deviation)
  | fuel + 1, prices, adjusted, deviation =>
    if 100 < |deviation| then
      if 0 ≤ (selectBest prices adjusted deviation).2.1 ∧
          0 < (selectBest prices adjusted deviation).1 then
        greedyLoop fuel prices
          (adjusted.set (selectBest prices adjusted deviation).2.1.toNat
            (adjusted.getD (selectBest prices adjusted deviation).2.1.toNat 0 +
              ((selectBest prices adjusted deviation).2.2 : ℚ) * 100))
          (deviation +
            ((selectBest prices adjusted deviation).2.2 : ℚ) * 100 *
              prices.getD (selectBest prices adjusted deviation).2.1.toNat 0)
      else (adjusted, deviation)
    else (adjusted, deviation)

/-- The seed of the optimizer (source line 63): each ideal quantity rounded
to a multiple of 100. -/
def seedSharesOf (l : List OptInput) : List ℚ :=
  (l.map (·.tradeShares)).map roundToHundred

/-- The initial deviation (source lines 66-68): seed aggregate amount minus
ideal aggregate amount. -/
def seedDeviationOf (l : List OptInput) : ℚ :=
  ((seedSharesOf l).zipWith (· * ·) (l.map (·.price))).sum -
    ((l.map (·.tradeShares)).zipWith (· * ·) (l.map (·.price))).sum

/-- `optimizeTradeShares` (source lines 52-114): seed by rounding, return the
seed when `|deviation| < 1000`, otherwise run the greedy search for at most
20 iterations. -/
def optimizeTradeShares (l : List OptInput) : List ℚ :=
  if |seedDeviationOf l| < 1000 then seedSharesOf l
  else (greedyLoop 20 (l.map (·.price)) (seedSharesOf l) (seedDeviationOf l)).1

/-- The parsed numeric inputs of one asset row: target weight, held shares,
price (`parseFloat(a.shares || '0')`, `parseFloat(a.price || '0')`). -/
structure AssetInput where
  target : ℚ
  shares : ℚ
  price : ℚ
  deriving DecidableEq

instance : Inhabited AssetInput := ⟨⟨0, 0, 0⟩⟩

/-- `currentTotal` (source lines 184-189): sum of `shares * price`. -/
def currentTotalOf (assets : List AssetInput) : ℚ :=
  (assets.map fun a => a.shares * a.price).sum

/-- `targetTotal` (source lines 192-195): current total plus the injected
cash (`additionalFunds`). -/
def targetTotalOf (assets : List AssetInput) (injectedCash : ℚ) : ℚ :=
  currentTotalOf assets + injectedCash

/-- The per-asset record produced by the first step of `computedAssets`
(source lines 199-219). -/
structure BasicComputed where
  target : ℚ
  shares : ℚ
  price : ℚ
  marketValue : ℚ
  weight : ℚ
  delta : ℚ
  tradeShares : ℚ
  tradeAmount : ℚ
  deriving DecidableEq

instance : Inhabited BasicComputed := ⟨⟨0, 0, 0, 0, 0, 0, 0, 0⟩⟩

/-- First step of `computedAssets` (source lines 199-219): market value,
current weight (0 unless `currentTotal > 0`), delta, target market value,
ideal trade amount and ideal trade quantity (0 unless `price > 0`). -/
def basicComputedOf (assets : List AssetInput) (injectedCash : ℚ) : List BasicComputed :=
  assets.map fun a =>
    let marketValue := a.shares * a.price
    let currentWeight :=
      if 0 < currentTotalOf assets then marketValue / currentTotalOf assets * 100 else 0
    let delta := currentWeight - a.target
    let targetMarketValue := a.target / 100 * targetTotalOf assets injectedCash
    let tradeAmount := targetMarketValue - marketValue
    let tradeShares := if 0 < a.price then tradeAmount / a.price else 0
    ⟨a.target, a.shares, a.price, marketValue, currentWeight, delta, tradeShares, tradeAmount⟩

/-- The full per-asset record (`ComputedAsset` interface, source lines
23-33), restricted to its numeric fields. -/
structure ComputedAsset where
  target : ℚ
  shares : ℚ
  price : ℚ
  marketValue : ℚ
  weight : ℚ
  delta : ℚ
  tradeShares : ℚ
  tradeAmount : ℚ
  adjustedTradeShares : ℚ
  adjustedTradeAmount : ℚ
  finalWeight : ℚ
  finalDelta : ℚ
  deriving DecidableEq

instance : Inhabited ComputedAsset := ⟨⟨0, 0, 0, 0, 0, 0, 0, 0, 0, 0, 0, 0⟩⟩

/-- Third step of `computedAssets` (source lines 225-241): attach one
optimized quantity to one basic record, computing the adjusted amount, the
final weight (0 unless `targetTotal > 0`) and the final delta. -/
def finalizeAsset (assets : List AssetInput) (injectedCash : ℚ) (a : BasicComputed)
    (adjustedTradeShares : ℚ) : ComputedAsset :=
  let adjustedTradeAmount := adjustedTradeShares * a.price
  let finalMarketValue := a.marketValue + adjustedTradeAmount
  let finalWeight :=
    if 0 < targetTotalOf assets injectedCash then
      finalMarketValue / targetTotalOf assets injectedCash * 100
    else 0
  ⟨a.target, a.shares, a.price, a.marketValue, a.weight, a.delta, a.tradeShares,
    a.tradeAmount, adjustedTradeShares, adjustedTradeAmount, finalWeight,
    finalWeight - a.target⟩

/-- `computedAssets` (source lines 197-242): the ideal allocation step,
then the lot-size optimizer, then the final adjusted figures. -/
def computedAssetsOf (assets : List AssetInput) (injectedCash : ℚ) : List ComputedAsset :=
  (basicComputedOf assets injectedCash).zipWith (finalizeAsset assets injectedCash)
    (optimizeTradeShares
      ((basicComputedOf assets injectedCash).map fun b => ⟨b.tradeShares, b.price⟩))

/-- `totalTradeAmount` (source lines 245-247): sum of the ideal trade
amounts over the computed assets. -/
def totalTradeAmountOf (assets : List AssetInput) (injectedCash : ℚ) : ℚ :=
  ((computedAssetsOf assets injectedCash).map (·.tradeAmount)).sum

/-! ### Generic list lemmas -/

lemma getD_map_of_lt {α β : Type} (f : α → β) :
    ∀ (l : List α) (i : ℕ), i < l.length → ∀ (d : β) (e : α),
      (l.map f).getD i d = f (l.getD i e) := by
  intro l
  induction l with
  | nil => intro i hi; simp at hi
  | cons x xs ih =>
    intro i hi d e
    cases i with
    | zero => simp
    | succ j => simpa using ih j (by simpa using hi) d e

lemma getD_zipWith_of_lt {α β γ : Type} (f : α → β → γ) :
    ∀ (as : List α) (bs : List β) (i : ℕ), i < as.length → i < bs.length →
      ∀ (d : γ) (da : α) (db : β),
        (List.zipWith f as bs).getD i d = f (as.getD i da) (bs.getD i db) := by
  intro as
  induction as with
  | nil => intro bs i hi; simp at hi
  | cons a as ih =>
    intro bs i hia hib d da db
    cases bs with
    | nil => simp at hib
    | cons b bs =>
      cases i with
      | zero => simp
      | succ j =>
        simpa using ih bs j (by simpa using hia) (by simpa using hib) d da db

lemma getD_set_ne {α : Type} (v : α) :
    ∀ (l : List α) (k i : ℕ), i ≠ k → ∀ (d : α), (l.set k v).getD i d = l.getD i d := by
  intro l
  induction l with
  | nil => intro k i _ d; simp
  | cons x xs ih =>
    intro k i hne d
    cases k with
    | zero =>
      cases i with
      | zero => exact absurd rfl hne
      | succ j => simp
    | succ m =>
      cases i with
      | zero => simp
      | succ j => simpa using ih m j (fun h => hne (by omega)) d

lemma getD_set_self {α : Type} (v : α) :
    ∀ (l : List α) (k : ℕ) (d : α),
      (l.set k v).getD k d = v ∨ (l.set k v).getD k d = d := by
  intro l
  induction l with
  | nil => intro k d; right; simp
  | cons x xs ih =>
    intro k d
    cases k with
    | zero => left; simp
    | succ m => simpa using ih m d

lemma exists_of_mem_zipWith {α β γ : Type} {f : α → β → γ} :
    ∀ {as : List α} {bs : List β} {c : γ}, c ∈ List.zipWith f as bs →
      ∃ a b, a ∈ as ∧ b ∈ bs ∧ c = f a b := by
  intro as
  induction as with
  | nil => intro bs c hc; simp at hc
  | cons a as ih =>
    intro bs c hc
    cases bs with
    | nil => simp at hc
    | cons b bs =>
      rcases (by simpa using hc : c = f a b ∨ c ∈ List.zipWith f as bs) with h | h
      · exact ⟨a, b, by simp, by simp, h⟩
      · obtain ⟨x, y, hx, hy, hxy⟩ := ih h
        exact ⟨x, y, by simp [hx], by simp [hy], hxy⟩

lemma map_zipWith_eq_map_left {α β γ δ : Type} (f : α → β → γ) (g : γ → δ) (h : α → δ)
    (hgf : ∀ x y, g (f x y) = h x) :
    ∀ (as : List α) (bs : List β), as.length ≤ bs.length →
      (List.zipWith f as bs).map g = as.map h := by
  intro as
  induction as with
  | nil => intro bs _; simp
  | cons a as ih =>
    intro bs hlen
    cases bs with
    | nil => simp at hlen
    | cons b bs => simp [hgf, ih bs (by simpa using hlen)]

/-! ### Sum of pointwise absolute differences -/

/-- `sumAbsDiff xs ys = Σ |xs i - ys i|`, the total (in shares) by which two
adjusted-quantity lists differ. -/
def sumAbsDiff (xs ys : List ℚ) : ℚ :=
  (List.zipWith (fun x y => |x - y|) xs ys).sum

lemma sumAbsDiff_nil (ys : List ℚ) : sumAbsDiff [] ys = 0 := by
  simp [sumAbsDiff]

lemma sumAbsDiff_cons (x y : ℚ) (xs ys : List ℚ) :
    sumAbsDiff (x :: xs) (y :: ys) = |x - y| + sumAbsDiff xs ys := by
  simp [sumAbsDiff]

lemma sumAbsDiff_nonneg : ∀ (xs ys : List ℚ), 0 ≤ sumAbsDiff xs ys := by
  intro xs
  induction xs with
  | nil => intro ys; simp [sumAbsDiff]
  | cons x xs ih =>
    intro ys
    cases ys with
    | nil => simp [sumAbsDiff]
    | cons y ys =>
      rw [sumAbsDiff_cons]
      exact add_nonneg (abs_nonneg _) (ih ys)

lemma sumAbsDiff_self : ∀ (xs : List ℚ), sumAbsDiff xs xs = 0 := by
  intro xs
  induction xs with
  | nil => simp [sumAbsDiff]
  | cons x xs ih => rw [sumAbsDiff_cons]; simp [ih]

lemma sumAbsDiff_triangle :
    ∀ (xs ys zs : List ℚ), xs.length = ys.length → ys.length = zs.length →
      sumAbsDiff xs zs ≤ sumAbsDiff xs ys + sumAbsDiff ys zs := by
  intro xs
  induction xs with
  | nil => intro ys zs _ _; simp [sumAbsDiff_nil, sumAbsDiff_nonneg]
  | cons x xs ih =>
    intro ys zs h1 h2
    cases ys with
    | nil => simp at h1
    | cons y ys =>
      cases zs with
      | nil => simp at h2
      | cons z zs =>
        rw [sumAbsDiff_cons, sumAbsDiff_cons, sumAbsDiff_cons]
        have h3 := ih ys zs (by simpa using h1) (by simpa using h2)
        have h4 := abs_sub_le x y z
        linarith

lemma sumAbsDiff_getD_le :
    ∀ (xs ys : List ℚ), xs.length = ys.length → ∀ (i : ℕ),
      |xs.getD i 0 - ys.getD i 0| ≤ sumAbsDiff xs ys := by
  intro xs
  induction xs with
  | nil =>
    intro ys h i
    cases ys with
    | nil => simp [sumAbsDiff]
    | cons y ys => simp at h
  | cons x xs ih =>
    intro ys h i
    cases ys with
    | nil => simp at h
    | cons y ys =>
      rw [sumAbsDiff_cons]
      cases i with
      | zero =>
        have := sumAbsDiff_nonneg xs ys
        simp only [List.getD_cons_zero]
        linarith
      | succ j =>
        have := ih ys (by simpa using h) j
        have := abs_nonneg (x - y)
        simp only [List.getD_cons_succ]
        linarith

lemma sumAbsDiff_set_le :
    ∀ (l : List ℚ) (k : ℕ) (v : ℚ), sumAbsDiff (l.set k v) l ≤ |v - l.getD k 0| := by
  intro l
  induction l with
  | nil => intro k v; simp [sumAbsDiff, abs_nonneg]
  | cons x xs ih =>
    intro k v
    cases k with
    | zero => simp [sumAbsDiff_cons, sumAbsDiff_self]
    | succ m =>
      rw [List.set_cons_succ, sumAbsDiff_cons]
      simpa using ih m v

/-! ### Characterization of the inner candidate scan -/

/-- The improvement of the `j`-th candidate in a candidate list. -/
def impAt (prices adjusted : List ℚ) (deviation : ℚ) (cs : List (ℕ × ℤ)) (j : ℕ) : ℚ :=
  improvement prices adjusted deviation (cs.getD j (0, 0)).1 (cs.getD j (0, 0)).2

lemma impAt_cons_zero (p a : List ℚ) (d : ℚ) (c : ℕ × ℤ) (tl : List (ℕ × ℤ)) :
    impAt p a d (c :: tl) 0 = improvement p a d c.1 c.2 := by
  simp [impAt]

lemma impAt_cons_succ (p a : List ℚ) (d : ℚ) (c : ℕ × ℤ) (tl : List (ℕ × ℤ)) (j : ℕ) :
    impAt p a d (c :: tl) (j + 1) = impAt p a d tl j := by
  simp [impAt]

lemma mem_candidates {p : List ℚ} {i : ℕ} {dir : ℤ} :
    (i, dir) ∈ candidates p ↔
      i < p.length ∧ 0 < p.getD i 0 ∧ (dir = -1 ∨ dir = 1) := by
  simp only [candidates, List.mem_flatMap, List.mem_range]
  constructor
  · rintro ⟨i2, hi2, hmem⟩
    by_cases hp : p.getD i2 0 ≤ 0
    · rw [if_pos hp] at hmem; simp at hmem
    · simp only [if_neg hp, List.mem_cons, List.mem_singleton, Prod.mk.injEq,
        List.not_mem_nil, or_false] at hmem
      rcases hmem with ⟨hi, hdir⟩ | ⟨hi, hdir⟩
      · exact hi ▸ ⟨hi2, lt_of_not_le hp, Or.inl hdir⟩
      · exact hi ▸ ⟨hi2, lt_of_not_le hp, Or.inr hdir⟩
  · rintro ⟨hi, hp, hdir⟩
    refine ⟨i, hi, ?_⟩
    rw [if_neg (not_le.mpr hp)]
    rcases hdir with h | h <;> simp [h]

/-- The result of folding `stepBest` over a candidate list: either no
candidate beats the initial improvement and the accumulator is unchanged, or
the result is the first candidate attaining the maximum improvement among
those that beat the initial one. -/
lemma foldl_stepBest_spec (p a : List ℚ) (d : ℚ) :
    ∀ (cs : List (ℕ × ℤ)) (init : ℚ × ℤ × ℤ),
      (cs.foldl (stepBest p a d) init = init ∧
        ∀ j, j < cs.length → impAt p a d cs j ≤ init.1) ∨
      (∃ j, j < cs.length ∧
        cs.foldl (stepBest p a d) init =
          (impAt p a d cs j, ((cs.getD j (0, 0)).1 : ℤ), (cs.getD j (0, 0)).2) ∧
        init.1 < impAt p a d cs j ∧
        (∀ jj, jj < cs.length → impAt p a d cs jj ≤ impAt p a d cs j) ∧
        (∀ jj, jj < j → impAt p a d cs jj < impAt p a d cs j)) := by
  intro cs
  induction cs with
  | nil =>
    intro init
    left
    exact ⟨rfl, fun j hj => by simp at hj⟩
  | cons c tl ih =>
    intro init
    rw [List.foldl_cons]
    by_cases hc : init.1 < improvement p a d c.1 c.2
    · have hstep : stepBest p a d init c = (improvement p a d c.1 c.2, (c.1 : ℤ), c.2) := by
        simp [stepBest, hc]
      rw [hstep]
      rcases ih (improvement p a d c.1 c.2, (c.1 : ℤ), c.2) with
        ⟨heq, hall⟩ | ⟨j, hj, heq, hgt, hmax, hfirst⟩
      · right
        refine ⟨0, by simp, ?_, ?_, ?_, ?_⟩
        · rw [heq, impAt_cons_zero]; simp
        · rw [impAt_cons_zero]; exact hc
        · intro jj hjj
          cases jj with
          | zero => exact le_rfl
          | succ k =>
            rw [impAt_cons_succ, impAt_cons_zero]
            exact hall k (by simpa using hjj)
        · intro jj hjj; omega
      · right
        refine ⟨j + 1, by simpa using hj, ?_, ?_, ?_, ?_⟩
        · rw [heq, impAt_cons_succ]; simp
        · rw [impAt_cons_succ]
          exact lt_trans hc hgt
        · intro jj hjj
          rw [impAt_cons_succ]
          cases jj with
          | zero => rw [impAt_cons_zero]; exact le_of_lt hgt
          | succ k => rw [impAt_cons_succ]; exact hmax k (by simpa using hjj)
        · intro jj hjj
          rw [impAt_cons_succ]
          cases jj with
          | zero => rw [impAt_cons_zero]; exact hgt
          | succ k => rw [impAt_cons_succ]; exact hfirst k (by omega)
    · have hstep : stepBest p a d init c = init := by
        simp [stepBest, hc]
      rw [hstep]
      rcases ih init with ⟨heq, hall⟩ | ⟨j, hj, heq, hgt, hmax, hfirst⟩
      · left
        refine ⟨heq, ?_⟩
        intro jj hjj
        cases jj with
        | zero => rw [impAt_cons_zero]; exact not_lt.mp hc
        | succ k => rw [impAt_cons_succ]; exact hall k (by simpa using hjj)
      · right
        refine ⟨j + 1, by simpa using hj, ?_, ?_, ?_, ?_⟩
        · rw [heq, impAt_cons_succ]; simp
        · rw [impAt_cons_succ]; exact hgt
        · intro jj hjj
          rw [impAt_cons_succ]
          cases jj with
          | zero =>
            rw [impAt_cons_zero]
            exact le_of_lt (lt_of_le_of_lt (not_lt.mp hc) hgt)
          | succ k => rw [impAt_cons_succ]; exact hmax k (by simpa using hjj)
        · intro jj hjj
          rw [impAt_cons_succ]
          cases jj with
          | zero => rw [impAt_cons_zero]; exact lt_of_le_of_lt (not_lt.mp hc) hgt
          | succ k => rw [impAt_cons_succ]; exact hfirst k (by omega)

/-- Specialization of `foldl_stepBest_spec` to the scan the optimizer runs. -/
lemma selectBest_spec (p a : List ℚ) (d : ℚ) :
    (selectBest p a d = (0, -1, 0) ∧
      ∀ j, j < (candidates p).length → impAt p a d (candidates p) j ≤ 0) ∨
    (∃ j, j < (candidates p).length ∧
      selectBest p a d =
        (impAt p a d (candidates p) j, (((candidates p).getD j (0, 0)).1 : ℤ),
          ((candidates p).getD j (0, 0)).2) ∧
      0 < impAt p a d (candidates p) j ∧
      (∀ jj, jj < (candidates p).length →
        impAt p a d (candidates p) jj ≤ impAt p a d (candidates p) j) ∧
      (∀ jj, jj < j → impAt p a d (candidates p) jj < impAt p a d (candidates p) j)) := by
  simpa [selectBest] using foldl_stepBest_spec p a d (candidates p) (0, -1, 0)

lemma getD_mem_of_lt {α : Type} : ∀ (l : List α) (i : ℕ), i < l.length → ∀ (d : α),
    l.getD i d ∈ l := by
  intro l
  induction l with
  | nil => intro i hi; simp at hi
  | cons x xs ih =>
    intro i hi d
    cases i with
    | zero => simp
    | succ j =>
      rw [List.getD_cons_succ]
      exact List.mem_cons_of_mem x (ih j (by simpa using hi) d)

/-- When the scan returns a positive best improvement, it returns a genuine
candidate together with its improvement. -/
lemma selectBest_pos (p a : List ℚ) (d : ℚ) (h : 0 < (selectBest p a d).1) :
    ∃ i : ℕ, ∃ dir : ℤ, (i, dir) ∈ candidates p ∧
      selectBest p a d = (improvement p a d i dir, (i : ℤ), dir) := by
  rcases selectBest_spec p a d with ⟨heq, _⟩ | ⟨j, hj, heq, _, _, _⟩
  · rw [heq] at h; norm_num at h
  · refine ⟨((candidates p).getD j (0, 0)).1, ((candidates p).getD j (0, 0)).2, ?_, ?_⟩
    · have := getD_mem_of_lt (candidates p) j hj (0, 0)
      simpa using this
    · rw [heq]; rfl

/-- The cost change of a candidate move simplifies to
`direction * 100 * price`. -/
lemma improvement_eq (p a : List ℚ) (d : ℚ) (i : ℕ) (dir : ℤ) :
    improvement p a d i dir = |d| - |d + (dir : ℚ) * 100 * p.getD i 0| := by
  have h : (a.getD i 0 + (dir : ℚ) * 100) * p.getD i 0 - a.getD i 0 * p.getD i 0 =
      (dir : ℚ) * 100 * p.getD i 0 := by ring
  rw [improvement, h]

/-- An applied move strictly decreases the absolute deviation. -/
lemma applied_dev_lt (p a : List ℚ) (d : ℚ) (h : 0 < (selectBest p a d).1) :
    |d + ((selectBest p a d).2.2 : ℚ) * 100 *
        p.getD (selectBest p a d).2.1.toNat 0| < |d| := by
  obtain ⟨i, dir, _, heq⟩ := selectBest_pos p a d h
  rw [heq] at h ⊢
  simp only [Int.toNat_natCast]
  rw [improvement_eq] at h
  have : ((improvement p a d i dir, (i : ℤ), dir) : ℚ × ℤ × ℤ).1 =
      improvement p a d i dir := rfl
  rw [improvement_eq] at this
  simp only [this] at h
  linarith [h]

/-- A selected move has direction `±1` and targets an asset with positive
price. -/
lemma selectBest_move_facts (p a : List ℚ) (d : ℚ) (h : 0 < (selectBest p a d).1) :
    ((selectBest p a d).2.2 = -1 ∨ (selectBest p a d).2.2 = 1) ∧
      0 < p.getD (selectBest p a d).2.1.toNat 0 ∧
      (selectBest p a d).2.1.toNat < p.length := by
  obtain ⟨i, dir, hmem, heq⟩ := selectBest_pos p a d h
  have hc := mem_candidates.mp hmem
  rw [heq]
  show (dir = -1 ∨ dir = 1) ∧ 0 < p.getD ((i : ℤ).toNat) 0 ∧ ((i : ℤ).toNat) < p.length
  rw [Int.toNat_natCast]
  exact ⟨hc.2.2, hc.2.1, hc.1⟩

/-! ### Invariants of the greedy iteration loop -/

lemma greedyLoop_length :
    ∀ (fuel : ℕ) (p a : List ℚ) (d : ℚ), ((greedyLoop fuel p a d).1).length = a.length := by
  intro fuel
  induction fuel with
  | zero => intro p a d; rfl
  | succ n ih =>
    intro p a d
    rw [greedyLoop]
    split_ifs with h1 h2
    · rw [ih]; simp
    · rfl
    · rfl

/-- The loop never increases the absolute deviation. -/
lemma greedyLoop_dev_le :
    ∀ (fuel : ℕ) (p a : List ℚ) (d : ℚ), |(greedyLoop fuel p a d).2| ≤ |d| := by
  intro fuel
  induction fuel with
  | zero => intro p a d; exact le_rfl
  | succ n ih =>
    intro p a d
    rw [greedyLoop]
    split_ifs with h1 h2
    · exact le_trans (ih p _ _) (le_of_lt (applied_dev_lt p a d h2.2))
    · exact le_rfl
    · exact le_rfl

/-- The loop performs at most `fuel` single-lot moves: the total absolute
change of the adjusted quantities is at most `fuel * 100` shares. -/
lemma greedyLoop_sumAbsDiff_le :
    ∀ (fuel : ℕ) (p a : List ℚ) (d : ℚ),
      sumAbsDiff (greedyLoop fuel p a d).1 a ≤ (fuel : ℚ) * 100 := by
  intro fuel
  induction fuel with
  | zero =>
    intro p a d
    rw [show greedyLoop 0 p a d = (a, d) from rfl]
    simp [sumAbsDiff_self]
  | succ n ih =>
    intro p a d
    rw [greedyLoop]
    split_ifs with h1 h2
    · set k := (selectBest p a d).2.1.toNat with hk
      set v := a.getD k 0 + ((selectBest p a d).2.2 : ℚ) * 100 with hv
      have htri := sumAbsDiff_triangle (greedyLoop n p (a.set k v)
          (d + ((selectBest p a d).2.2 : ℚ) * 100 * p.getD k 0)).1 (a.set k v) a
        (by rw [greedyLoop_length]) (by simp)
      have hset := sumAbsDiff_set_le a k v
      have habs : |v - a.getD k 0| = 100 := by
        rcases (selectBest_move_facts p a d h2.2).1 with hdir | hdir <;>
          rw [hv] <;> rw [hdir] <;> norm_num
      have hih := ih p (a.set k v) (d + ((selectBest p a d).2.2 : ℚ) * 100 * p.getD k 0)
      rw [habs] at hset
      push_cast
      linarith
    · simp [sumAbsDiff_self]
      positivity
    · simp [sumAbsDiff_self]
      positivity

/-- An asset with non-positive price is never moved by the loop. -/
lemma greedyLoop_fixed_nonpos :
    ∀ (fuel : ℕ) (p a : List ℚ) (d : ℚ) (i : ℕ), p.getD i 0 ≤ 0 →
      ((greedyLoop fuel p a d).1).getD i 0 = a.getD i 0 := by
  intro fuel
  induction fuel with
  | zero => intro p a d i _; rfl
  | succ n ih =>
    intro p a d i hp
    rw [greedyLoop]
    split_ifs with h1 h2
    · rw [ih p _ _ i hp]
      have hkpos := (selectBest_move_facts p a d h2.2).2.1
      have hne : i ≠ (selectBest p a d).2.1.toNat := by
        intro heq
        rw [heq] at hp
        exact absurd hkpos (not_lt.mpr hp)
      exact getD_set_ne _ a _ i hne 0
    · rfl
    · rfl

/-- The loop preserves the all-quantities-are-lot-multiples invariant. -/
lemma greedyLoop_getD_mult :
    ∀ (fuel : ℕ) (p a : List ℚ) (d : ℚ),
      (∀ i, ∃ m : ℤ, a.getD i 0 = 100 * (m : ℚ)) →
      ∀ i, ∃ m : ℤ, ((greedyLoop fuel p a d).1).getD i 0 = 100 * (m : ℚ) := by
  intro fuel
  induction fuel with
  | zero => intro p a d h i; exact h i
  | succ n ih =>
    intro p a d h i
    rw [greedyLoop]
    split_ifs with h1 h2
    · set k := (selectBest p a d).2.1.toNat with hk
      set dir := (selectBest p a d).2.2 with hdir
      refine ih p _ _ ?_ i
      intro j
      by_cases hjk : j = k
      · rw [hjk]
        rcases getD_set_self (a.getD k 0 + (dir : ℚ) * 100) a k 0 with hcase | hcase
        · obtain ⟨m, hm⟩ := h k
          refine ⟨m + dir, ?_⟩
          rw [hcase, hm]
          push_cast
          ring
        · exact ⟨0, by rw [hcase]; norm_num⟩
      · rw [getD_set_ne _ a _ j hjk 0]
        exact h j
    · exact h i
    · exact h i

/-- The optimizer returns one adjusted quantity per input asset. -/
lemma optimizeTradeShares_length (l : List OptInput) :
    (optimizeTradeShares l).length = l.length := by
  rw [optimizeTradeShares]
  split_ifs with h
  · simp [seedSharesOf]
  · rw [greedyLoop_length]; simp [seedSharesOf]

lemma getD_eq_get_of_lt {α : Type} :
    ∀ (l : List α) (i : ℕ) (h : i < l.length) (d : α), l.getD i d = l.get ⟨i, h⟩ := by
  intro l
  induction l with
  | nil => intro i h; simp at h
  | cons x xs ih =>
    intro i h d
    cases i with
    | zero => simp
    | succ j => simpa using ih j (by simpa using h) d

lemma getD_eq_default_of_le {α : Type} :
    ∀ (l : List α) (i : ℕ), l.length ≤ i → ∀ (d : α), l.getD i d = d := by
  intro l
  induction l with
  | nil => intro i _ d; simp
  | cons x xs ih =>
    intro i h d
    cases i with
    | zero => simp at h
    | succ j => simpa using ih j (by simpa using h) d

/-! ### Claim theorems -/

/-- C1 counterexample: the claim says an ideal quantity of `-150` seeds to
`-200` (round half away from zero).  On the code, `Math.round(-1.5) = -1`,
so `-150` seeds to `-100`, and the optimizer (which here takes the early
exit and returns the seed) returns `[-100]`. -/
theorem c1_seed_counterexample :
    optimizeTradeShares [⟨-150, 1⟩] = [-100] ∧
      roundToHundred (-150) = -100 ∧ roundToHundred (-150) ≠ -200 := by
  norm_num [optimizeTradeShares, seedDeviationOf, seedSharesOf, roundToHundred]

/-- C1 (amended): the seed assigns to each asset its ideal trade quantity
rounded to the nearest multiple of the lot size 100, where a quotient
exactly halfway between two integers rounds toward positive infinity
(JavaScript `Math.round` semantics): the seed value is the multiple
`100 * k` with `-50 < 100 * k - ideal ≤ 50`. -/
theorem c1_seed_round_amended (l : List OptInput) (i : ℕ) (hi : i < l.length) :
    (seedSharesOf l).getD i 0 = roundToHundred ((l.getD i default).tradeShares) ∧
      ∃ k : ℤ, (seedSharesOf l).getD i 0 = 100 * (k : ℚ) ∧
        -50 < 100 * (k : ℚ) - (l.getD i default).tradeShares ∧
        100 * (k : ℚ) - (l.getD i default).tradeShares ≤ 50 := by
  have h1 : (seedSharesOf l).getD i 0 = roundToHundred ((l.getD i default).tradeShares) := by
    rw [seedSharesOf,
      getD_map_of_lt roundToHundred (l.map (·.tradeShares)) i (by simpa using hi) 0 0,
      getD_map_of_lt (·.tradeShares) l i hi 0 default]
  refine ⟨h1, ⟨⌊(l.getD i default).tradeShares / 100 + 1 / 2⌋, ?_, ?_, ?_⟩⟩
  · rw [h1, roundToHundred]; ring
  · have h3 := Int.lt_floor_add_one ((l.getD i default).tradeShares / 100 + 1 / 2)
    linarith
  · have h2 := Int.floor_le ((l.getD i default).tradeShares / 100 + 1 / 2)
    linarith

theorem c1_seed_round_amended_witness :
    (seedSharesOf [⟨-150, 1⟩]).getD 0 0 =
        roundToHundred ((([⟨-150, 1⟩] : List OptInput).getD 0 default).tradeShares) ∧
      ∃ k : ℤ, (seedSharesOf [⟨-150, 1⟩]).getD 0 0 = 100 * (k : ℚ) ∧
        -50 < 100 * (k : ℚ) - (([⟨-150, 1⟩] : List OptInput).getD 0 default).tradeShares ∧
        100 * (k : ℚ) - (([⟨-150, 1⟩] : List OptInput).getD 0 default).tradeShares ≤ 50 :=
  c1_seed_round_amended [⟨-150, 1⟩] 0 (by norm_num)

/-- C3: every quantity returned by the optimizer is an integer multiple of
100 — the seed is a list of multiples of 100 and every greedy move changes
one quantity by `direction * 100`, so the property is an invariant of the
whole search. -/
theorem c3_lot_conformance (l : List OptInput) (x : ℚ)
    (hx : x ∈ optimizeTradeShares l) : ∃ k : ℤ, x = 100 * (k : ℚ) := by
  obtain ⟨⟨i, hi⟩, hget⟩ := List.mem_iff_get.mp hx
  have hx2 : (optimizeTradeShares l).getD i 0 = x := by
    rw [getD_eq_get_of_lt _ i hi]; exact hget
  have hseed : ∀ j, ∃ m : ℤ, (seedSharesOf l).getD j 0 = 100 * (m : ℚ) := by
    intro j
    by_cases hj : j < (seedSharesOf l).length
    · rw [seedSharesOf] at hj ⊢
      rw [getD_map_of_lt roundToHundred (l.map (·.tradeShares)) j (by simpa using hj) 0 0]
      exact ⟨⌊(l.map (·.tradeShares)).getD j 0 / 100 + 1 / 2⌋, by rw [roundToHundred]; ring⟩
    · rw [getD_eq_default_of_le _ j (le_of_not_lt hj) 0]
      exact ⟨0, by norm_num⟩
  rw [optimizeTradeShares] at hx2
  split_ifs at hx2 with h
  · rw [← hx2]
    exact hseed i
  · rw [← hx2]
    exact greedyLoop_getD_mult _ _ _ _ hseed i

theorem c3_lot_conformance_witness : ∃ k : ℤ, (200 : ℚ) = 100 * (k : ℚ) :=
  c3_lot_conformance [⟨150, 1⟩] 200
    (by norm_num [optimizeTradeShares, seedDeviationOf, seedSharesOf, roundToHundred])

/-- C5: across the greedy search the absolute deviation never increases
(each applied move strictly decreases it), the loop stops immediately when
`|deviation| ≤ 100`, and a run with `fuel` iterations (20 in the code)
moves at most `fuel` single lots in total, so the search always
terminates. -/
theorem c5_monotone_terminating (fuel : ℕ) (p a : List ℚ) (d : ℚ) :
    |(greedyLoop fuel p a d).2| ≤ |d| ∧
      (|d| ≤ 100 → greedyLoop fuel p a d = (a, d)) ∧
      (0 < (selectBest p a d).1 →
        |d + ((selectBest p a d).2.2 : ℚ) * 100 *
            p.getD (selectBest p a d).2.1.toNat 0| < |d|) ∧
      sumAbsDiff (greedyLoop fuel p a d).1 a ≤ (fuel : ℚ) * 100 := by
  refine ⟨greedyLoop_dev_le fuel p a d, ?_, applied_dev_lt p a d,
    greedyLoop_sumAbsDiff_le fuel p a d⟩
  intro hd
  cases fuel with
  | zero => rfl
  | succ n => rw [greedyLoop, if_neg (not_lt.mpr hd)]

theorem c5_monotone_terminating_witness :
    greedyLoop 20 [10] [0] 50 = ([0], 50) ∧
      |(5000 : ℚ) + ((selectBest [10] [0] 5000).2.2 : ℚ) * 100 *
          ([(10 : ℚ)]).getD (selectBest [10] [0] 5000).2.1.toNat 0| < |(5000 : ℚ)| :=
  ⟨(c5_monotone_terminating 20 [10] [0] 50).2.1 (by norm_num),
    (c5_monotone_terminating 0 [10] [0] 5000).2.2.1
      (by norm_num [selectBest, candidates, stepBest, improvement, List.foldl])⟩

/-- C6: when the seed's aggregate deviation is below 1000 in absolute value,
the optimizer returns the seed unchanged, performing no greedy moves. -/
theorem c6_early_exit (l : List OptInput) (h : |seedDeviationOf l| < 1000) :
    optimizeTradeShares l = seedSharesOf l := by
  rw [optimizeTradeShares, if_pos h]

theorem c6_early_exit_witness :
    optimizeTradeShares [⟨150, 1⟩] = seedSharesOf [⟨150, 1⟩] :=
  c6_early_exit [⟨150, 1⟩]
    (by norm_num [seedDeviationOf, seedSharesOf, roundToHundred])

/-- C10: each returned adjusted quantity differs from its seed by at most
2000 units (20 lots), and the total number of moved lots,
`Σ |adjusted - seed| / 100`, is at most 20 — one single-lot move per
iteration over at most 20 iterations. -/
theorem c10_move_budget (l : List OptInput) (i : ℕ) :
    |(optimizeTradeShares l).getD i 0 - (seedSharesOf l).getD i 0| ≤ 2000 ∧
      sumAbsDiff (optimizeTradeShares l) (seedSharesOf l) / 100 ≤ 20 := by
  have hlen : (optimizeTradeShares l).length = (seedSharesOf l).length := by
    rw [optimizeTradeShares_length]; simp [seedSharesOf]
  have hsum : sumAbsDiff (optimizeTradeShares l) (seedSharesOf l) ≤ 2000 := by
    rw [optimizeTradeShares]
    split_ifs with h
    · rw [sumAbsDiff_self]; norm_num
    · have h20 := greedyLoop_sumAbsDiff_le 20 (l.map (·.price)) (seedSharesOf l)
        (seedDeviationOf l)
      norm_num at h20
      exact h20
  constructor
  · have := sumAbsDiff_getD_le (optimizeTradeShares l) (seedSharesOf l) hlen i
    linarith
  · linarith

/-- C4: in each iteration the optimizer scans the assets in ascending index
order, skipping assets with non-positive price, trying direction `-1`
before `+1`; each candidate's improvement is `|deviation| - |newDeviation|`;
the iteration applies exactly the candidate with the strictly largest
positive improvement, the first-seen candidate winning ties, and if no
candidate has positive improvement the iteration stops with the quantities
unchanged. -/
theorem c4_greedy_selection (p a : List ℚ) (d : ℚ) :
    (∀ i : ℕ, ∀ dir : ℤ, ((i, dir) ∈ candidates p ↔
        i < p.length ∧ 0 < p.getD i 0 ∧ (dir = -1 ∨ dir = 1))) ∧
    (∀ i : ℕ, ∀ dir : ℤ, improvement p a d i dir =
        |d| - |d + (dir : ℚ) * 100 * p.getD i 0|) ∧
    ((∀ j, j < (candidates p).length → impAt p a d (candidates p) j ≤ 0) →
      selectBest p a d = (0, -1, 0) ∧
        ∀ fuel : ℕ, greedyLoop (fuel + 1) p a d = (a, d)) ∧
    ((∃ j, j < (candidates p).length ∧ 0 < impAt p a d (candidates p) j) →
      ∃ j, j < (candidates p).length ∧
        selectBest p a d =
          (impAt p a d (candidates p) j, (((candidates p).getD j (0, 0)).1 : ℤ),
            ((candidates p).getD j (0, 0)).2) ∧
        0 < impAt p a d (candidates p) j ∧
        (∀ jj, jj < (candidates p).length →
          impAt p a d (candidates p) jj ≤ impAt p a d (candidates p) j) ∧
        (∀ jj, jj < j → impAt p a d (candidates p) jj < impAt p a d (candidates p) j) ∧
        (100 < |d| → ∀ fuel : ℕ,
          greedyLoop (fuel + 1) p a d =
            greedyLoop fuel p
              (a.set ((candidates p).getD j (0, 0)).1
                (a.getD ((candidates p).getD j (0, 0)).1 0 +
                  ((((candidates p).getD j (0, 0)).2 : ℤ) : ℚ) * 100))
              (d + ((((candidates p).getD j (0, 0)).2 : ℤ) : ℚ) * 100 *
                p.getD ((candidates p).getD j (0, 0)).1 0))) := by
  refine ⟨fun i dir => mem_candidates, fun i dir => improvement_eq p a d i dir, ?_, ?_⟩
  · intro hall
    rcases selectBest_spec p a d with ⟨heq, _⟩ | ⟨j, hj, _, hgt, _, _⟩
    · refine ⟨heq, ?_⟩
      intro fuel
      rw [greedyLoop, heq]
      split_ifs with h1 h2
      · exfalso; norm_num at h2
      · rfl
      · rfl
    · have := hall j hj
      linarith
  · rintro ⟨j0, hj0, hpos0⟩
    rcases selectBest_spec p a d with ⟨_, hall⟩ | ⟨j, hj, heq, hgt, hmax, hfirst⟩
    · exact absurd hpos0 (not_lt.mpr (hall j0 hj0))
    · have hpos : 0 < impAt p a d (candidates p) j := hgt
      refine ⟨j, hj, heq, hpos, hmax, hfirst, ?_⟩
      intro hd fuel
      rw [greedyLoop, if_pos hd, heq]
      rw [if_pos ⟨Int.natCast_nonneg _, hpos⟩]
      rfl

theorem c4_greedy_selection_witness :
    selectBest [(-5 : ℚ)] [0] 5000 = (0, -1, 0) ∧
      ∀ fuel : ℕ, greedyLoop (fuel + 1) [(-5 : ℚ)] [0] 5000 = ([0], 5000) :=
  (c4_greedy_selection [(-5 : ℚ)] [0] 5000).2.2.1
    (by
      intro j hj
      rw [show candidates [(-5 : ℚ)] = [] from by
        norm_num [candidates, List.range_succ]] at hj
      simp at hj)

/-! ### Pipeline lemmas -/

lemma length_basicComputedOf (A : List AssetInput) (cash : ℚ) :
    (basicComputedOf A cash).length = A.length := by
  simp [basicComputedOf]

lemma length_computedAssetsOf (A : List AssetInput) (cash : ℚ) :
    (computedAssetsOf A cash).length = A.length := by
  rw [computedAssetsOf, List.length_zipWith, optimizeTradeShares_length]
  simp [basicComputedOf]

lemma computedAssets_tradeAmount (A : List AssetInput) (cash : ℚ) :
    (computedAssetsOf A cash).map (·.tradeAmount) =
      A.map fun a => a.target / 100 * targetTotalOf A cash - a.shares * a.price := by
  rw [computedAssetsOf,
    map_zipWith_eq_map_left (finalizeAsset A cash) (·.tradeAmount)
      (fun b : BasicComputed => b.tradeAmount) (fun x y => rfl) _ _
      (by rw [optimizeTradeShares_length]; simp [basicComputedOf])]
  rw [basicComputedOf, List.map_map]
  rfl

lemma computedAssets_weight (A : List AssetInput) (cash : ℚ) :
    (computedAssetsOf A cash).map (·.weight) =
      A.map fun a =>
        if 0 < currentTotalOf A then a.shares * a.price / currentTotalOf A * 100
        else 0 := by
  rw [computedAssetsOf,
    map_zipWith_eq_map_left (finalizeAsset A cash) (·.weight)
      (fun b : BasicComputed => b.weight) (fun x y => rfl) _ _
      (by rw [optimizeTradeShares_length]; simp [basicComputedOf])]
  rw [basicComputedOf, List.map_map]
  rfl

lemma sum_tradeAmount_eq :
    ∀ (A : List AssetInput) (T : ℚ),
      (A.map fun a => a.target / 100 * T - a.shares * a.price).sum =
        (A.map (·.target)).sum / 100 * T - (A.map fun a => a.shares * a.price).sum := by
  intro A T
  induction A with
  | nil => simp
  | cons x xs ih =>
    simp only [List.map_cons, List.sum_cons, ih]
    ring

lemma sum_weight_eq :
    ∀ (A : List AssetInput) (T : ℚ),
      (A.map fun a => a.shares * a.price / T * 100).sum =
        (A.map fun a => a.shares * a.price).sum / T * 100 := by
  intro A T
  induction A with
  | nil => simp
  | cons x xs ih =>
    simp only [List.map_cons, List.sum_cons, ih]
    ring

/-- C2 counterexample: with a single asset of target weight 50 (targets sum
to 50, not 100) and injected cash 100, the ideal trade amounts sum to 50,
not to the injected cash. -/
theorem c2_trade_sum_counterexample :
    totalTradeAmountOf [⟨50, 0, 0⟩] 100 = 50 ∧ (50 : ℚ) ≠ 100 := by
  constructor
  · norm_num [totalTradeAmountOf, computedAssetsOf, finalizeAsset, basicComputedOf,
      currentTotalOf, targetTotalOf, optimizeTradeShares, seedDeviationOf, seedSharesOf,
      roundToHundred]
  · norm_num

/-- C2 (amended): whenever the target weights sum to 100, the ideal trade
amounts produced by the allocation calculator sum exactly to the injected
cash, for every asset list and every injected cash value (including 0 and
negative values); in particular they sum to 0 when the injected cash is 0.
Without the targets-sum-to-100 precondition the property fails. -/
theorem c2_trade_sum_amended (A : List AssetInput) (cash : ℚ)
    (h : (A.map (·.target)).sum = 100) :
    totalTradeAmountOf A cash = cash := by
  rw [totalTradeAmountOf, computedAssets_tradeAmount, sum_tradeAmount_eq, h,
    targetTotalOf, currentTotalOf]
  ring

theorem c2_trade_sum_amended_witness : totalTradeAmountOf [⟨100, 0, 1⟩] 7 = 7 :=
  c2_trade_sum_amended [⟨100, 0, 1⟩] 7 (by simp)

/-- C8: when the current total market value is positive the current weights
sum to exactly 100; when it is not positive every current weight is 0. -/
theorem c8_weight_conservation (A : List AssetInput) (cash : ℚ) :
    (0 < currentTotalOf A → ((computedAssetsOf A cash).map (·.weight)).sum = 100) ∧
      (currentTotalOf A ≤ 0 → ∀ ca ∈ computedAssetsOf A cash, ca.weight = 0) := by
  constructor
  · intro hpos
    rw [computedAssets_weight]
    have hifs :
        (A.map fun a =>
          if 0 < currentTotalOf A then a.shares * a.price / currentTotalOf A * 100
          else 0) =
        A.map fun a => a.shares * a.price / currentTotalOf A * 100 := by
      simp only [if_pos hpos]
    rw [hifs, sum_weight_eq]
    have hct : (A.map fun a => a.shares * a.price).sum = currentTotalOf A := rfl
    rw [hct, div_self (ne_of_gt hpos)]
    norm_num
  · intro hle ca hca
    rw [computedAssetsOf] at hca
    obtain ⟨b, adj, hb, _, hceq⟩ := exists_of_mem_zipWith hca
    rw [basicComputedOf] at hb
    obtain ⟨a, ha, hbeq⟩ := List.mem_map.mp hb
    rw [hceq]
    show b.weight = 0
    rw [← hbeq]
    show (if 0 < currentTotalOf A then a.shares * a.price / currentTotalOf A * 100
      else 0) = 0
    rw [if_neg (not_lt.mpr hle)]

theorem c8_weight_conservation_witness :
    ((computedAssetsOf [⟨50, 100, 1⟩] 0).map (·.weight)).sum = 100 ∧
      ∀ ca ∈ computedAssetsOf [⟨50, 0, 1⟩] 0, ca.weight = 0 :=
  ⟨(c8_weight_conservation [⟨50, 100, 1⟩] 0).1 (by norm_num [currentTotalOf]),
    (c8_weight_conservation [⟨50, 0, 1⟩] 0).2 (by norm_num [currentTotalOf])⟩

/-- C9: a weight whose denominator is not positive is defined to be 0 (the
guarded conditional never evaluates the division): `currentWeight = 0` when
`currentTotal ≤ 0` and `finalWeight = 0` when `targetTotal ≤ 0`; the
computation is total and never signals failure. -/
theorem c9_degenerate_totals (A : List AssetInput) (cash : ℚ) (ca : ComputedAsset)
    (hca : ca ∈ computedAssetsOf A cash) :
    (currentTotalOf A ≤ 0 → ca.weight = 0) ∧
      (targetTotalOf A cash ≤ 0 → ca.finalWeight = 0) := by
  rw [computedAssetsOf] at hca
  obtain ⟨b, adj, hb, _, hceq⟩ := exists_of_mem_zipWith hca
  rw [basicComputedOf] at hb
  obtain ⟨a, ha, hbeq⟩ := List.mem_map.mp hb
  constructor
  · intro hle
    rw [hceq]
    show b.weight = 0
    rw [← hbeq]
    show (if 0 < currentTotalOf A then a.shares * a.price / currentTotalOf A * 100
      else 0) = 0
    rw [if_neg (not_lt.mpr hle)]
  · intro hle
    rw [hceq]
    show (if 0 < targetTotalOf A cash then
        (b.marketValue + adj * b.price) / targetTotalOf A cash * 100
      else 0) = 0
    rw [if_neg (not_lt.mpr hle)]

theorem c9_degenerate_totals_witness :
    ((computedAssetsOf [⟨50, 0, 1⟩] (-5)).getD 0 default).weight = 0 ∧
      ((computedAssetsOf [⟨50, 0, 1⟩] (-5)).getD 0 default).finalWeight = 0 := by
  have hmem : (computedAssetsOf [⟨50, 0, 1⟩] (-5)).getD 0 default ∈
      computedAssetsOf [⟨50, 0, 1⟩] (-5) := by
    apply getD_mem_of_lt
    rw [length_computedAssetsOf]
    norm_num
  have h := c9_degenerate_totals [⟨50, 0, 1⟩] (-5) _ hmem
  exact ⟨h.1 (by norm_num [currentTotalOf]),
    h.2 (by norm_num [targetTotalOf, currentTotalOf])⟩

/-- C7: an asset with non-positive price has ideal trade quantity 0 by
definition, its seed is 0, and the greedy search never moves such an asset,
so the full pipeline yields both `tradeShares = 0` and
`adjustedTradeShares = 0` for it. -/
theorem c7_immovable_assets (A : List AssetInput) (cash : ℚ) (i : ℕ)
    (hi : i < A.length) (hp : (A.getD i default).price ≤ 0) :
    ((computedAssetsOf A cash).getD i default).tradeShares = 0 ∧
      ((computedAssetsOf A cash).getD i default).adjustedTradeShares = 0 := by
  have hlenb : (basicComputedOf A cash).length = A.length := length_basicComputedOf A cash
  have hts : ((basicComputedOf A cash).getD i default).tradeShares = 0 := by
    rw [basicComputedOf, getD_map_of_lt _ A i hi default default]
    show (if 0 < (A.getD i default).price then _ else 0) = 0
    exact if_neg (not_lt.mpr hp)
  have hLp :
      (((basicComputedOf A cash).map fun b => (⟨b.tradeShares, b.price⟩ : OptInput)).map
        (·.price)).getD i 0 = (A.getD i default).price := by
    rw [getD_map_of_lt _ _ i (by simp only [List.length_map, hlenb]; exact hi) 0 default,
      getD_map_of_lt _ _ i (by simp only [List.length_map, hlenb]; exact hi) default default]
    show ((basicComputedOf A cash).getD i default).price = _
    rw [basicComputedOf, getD_map_of_lt _ A i hi default default]
  have hseedz :
      (seedSharesOf ((basicComputedOf A cash).map fun b =>
        (⟨b.tradeShares, b.price⟩ : OptInput))).getD i 0 = 0 := by
    rw [seedSharesOf,
      getD_map_of_lt roundToHundred _ i (by simp only [List.length_map, hlenb]; exact hi) 0 0,
      getD_map_of_lt _ _ i (by simp only [List.length_map, hlenb]; exact hi) 0 default,
      getD_map_of_lt _ _ i (by simp only [List.length_map, hlenb]; exact hi) default default]
    show roundToHundred ((basicComputedOf A cash).getD i default).tradeShares = 0
    rw [hts]
    norm_num [roundToHundred]
  have hopt :
      (optimizeTradeShares ((basicComputedOf A cash).map fun b =>
        (⟨b.tradeShares, b.price⟩ : OptInput))).getD i 0 = 0 := by
    rw [optimizeTradeShares]
    split_ifs with h
    · exact hseedz
    · rw [greedyLoop_fixed_nonpos 20 _ _ _ i (by rw [hLp]; exact hp)]
      exact hseedz
  have hzip := getD_zipWith_of_lt (finalizeAsset A cash) (basicComputedOf A cash)
    (optimizeTradeShares ((basicComputedOf A cash).map fun b =>
      (⟨b.tradeShares, b.price⟩ : OptInput)))
    i (by rw [hlenb]; exact hi)
    (by rw [optimizeTradeShares_length]; simp only [List.length_map, hlenb]; exact hi)
    default default 0
  constructor
  · rw [computedAssetsOf, hzip]
    show ((basicComputedOf A cash).getD i default).tradeShares = 0
    exact hts
  · rw [computedAssetsOf, hzip]
    show (optimizeTradeShares _).getD i 0 = 0
    exact hopt

theorem c7_immovable_assets_witness :
    ((computedAssetsOf [⟨50, 10, 0⟩] 0).getD 0 default).tradeShares = 0 ∧
      ((computedAssetsOf [⟨50, 10, 0⟩] 0).getD 0 default).adjustedTradeShares = 0 :=
  c7_immovable_assets [⟨50, 10, 0⟩] 0 0 (by norm_num) (by norm_num)

